import Mathlib

/-!
Verification development for the skynet-js cryptographic core: byte-level
encodings, child-seed and path-seed derivation, the encrypted container
codec with its padding scheme, registry-entry hashing, the `setJSON`
revision protocol and the `MySky` singleton constructor.

Bytes are modelled as `Nat` values below 256 in a `List Nat`; strings are
modelled as `List Char`.  External cryptographic primitives (blake2b,
xsalsa20-poly1305, ed25519) are not part of the repository's sources; they
are replaced by concrete executable stand-ins that respect the interface
the specification assigns to them (fixed output widths, determinism).
-/

namespace SkynetJs

/-- Hex digit character for a value below 16 (lowercase, as the spec fixes
lowercase hex for every seed/key/tweak). -/
def hexDigit (n : Nat) : Char :=
  if n < 10 then Char.ofNat (48 + n) else Char.ofNat (87 + n)

/-- Two lowercase hex characters for one byte. -/
def byteToHex (b : Nat) : List Char :=
  [hexDigit (b / 16), hexDigit (b % 16)]

/-- Lowercase hex encoding of a byte list (the source's `toHexString`). -/
def toHexString (bs : List Nat) : List Char :=
  (bs.map byteToHex).flatten

/-- Value of one hex character, `none` for a non-hex character. -/
def hexVal (c : Char) : Option Nat :=
  if 48 ≤ c.toNat ∧ c.toNat ≤ 57 then some (c.toNat - 48)
  else if 97 ≤ c.toNat ∧ c.toNat ≤ 102 then some (c.toNat - 87)
  else none

/-- Decodes a lowercase hex string into bytes; `none` when the string is not
valid hex of even length (the source's `hexToUint8Array`, which rejects
non-hex input). -/
def hexToByteList : List Char → Option (List Nat)
  | [] => some []
  | [_] => none
  | c1 :: c2 :: rest => do
    let hi ← hexVal c1
    let lo ← hexVal c2
    let tail ← hexToByteList rest
    pure ((hi * 16 + lo) :: tail)

/-- UTF-8 encoding of a single character. -/
def utf8Char (c : Char) : List Nat :=
  let n := c.toNat
  if n < 128 then [n]
  else if n < 2048 then [192 + n / 64, 128 + n % 64]
  else if n < 65536 then [224 + n / 4096, 128 + n / 64 % 64, 128 + n % 64]
  else [240 + n / 262144, 128 + n / 4096 % 64, 128 + n / 64 % 64, 128 + n % 64]

/-- UTF-8 encoding of a string (the source's `stringToUint8ArrayUtf8`). -/
def utf8Encode (s : List Char) : List Nat :=
  (s.map utf8Char).flatten

/-- Fixed-width little-endian 64-bit encoding of a natural number. -/
def encodeNumber64 (n : Nat) : List Nat :=
  (List.range 8).map (fun i => n / 256 ^ i % 256)

/-- One mixing byte of the stand-in hash: a seeded fold over the input. -/
def mixByte (seedInit : Nat) (input : List Nat) : Nat :=
  input.foldl (fun a b => (a * 33 + b + 1) % 256) seedInit

/-- Stand-in for the 32-byte blake2b hash used by `crypto.ts` (`newHash`
returns a 256-bit hasher); a concrete deterministic byte function of the
full input with a fixed 32-byte output. -/
def hashBytes32 (input : List Nat) : List Nat :=
  (List.range 32).map (fun i => mixByte (i + 101) input)

/-- Modelled from the spec: §4.3 derives directory-level seeds with a
wide-output construction ("two hash invocations' worth of output"), a
64-byte untruncated digest; the repository file implementing it is absent
from src/.  Concrete deterministic stand-in with a fixed 64-byte output. -/
def hashWide (input : List Nat) : List Nat :=
  (List.range 64).map (fun i => mixByte (i + 137) input)

/- ### Basic facts about the helpers -/

theorem mixByte_lt (seedInit : Nat) (input : List Nat) (h : seedInit < 256) :
    mixByte seedInit input < 256 := by
  unfold mixByte
  induction input generalizing seedInit with
  | nil => simpa using h
  | cons b bs ih => exact ih _ (Nat.mod_lt _ (by omega))

theorem hashBytes32_length (input : List Nat) : (hashBytes32 input).length = 32 := by
  simp [hashBytes32]

theorem hashWide_length (input : List Nat) : (hashWide input).length = 64 := by
  simp [hashWide]

theorem hashWide_lt (input : List Nat) :
    ∀ b ∈ hashWide input, b < 256 := by
  intro b hb
  simp only [hashWide, List.mem_map] at hb
  obtain ⟨i, hi, rfl⟩ := hb
  simp only [List.mem_range] at hi
  exact mixByte_lt _ _ (by omega)

theorem hexVal_hexDigit (n : Nat) (h : n < 16) : hexVal (hexDigit n) = some n := by
  interval_cases n <;> rfl

theorem hexToByteList_toHexString (bs : List Nat) (h : ∀ b ∈ bs, b < 256) :
    hexToByteList (toHexString bs) = some bs := by
  induction bs with
  | nil => rfl
  | cons b tl ih =>
    have hb : b < 256 := h b (by simp)
    have htl : hexToByteList (toHexString tl) = some tl :=
      ih (fun x hx => h x (by simp [hx]))
    have hhi : hexVal (hexDigit (b / 16)) = some (b / 16) :=
      hexVal_hexDigit _ (by omega)
    have hlo : hexVal (hexDigit (b % 16)) = some (b % 16) :=
      hexVal_hexDigit _ (Nat.mod_lt _ (by omega))
    have hcons : toHexString (b :: tl) =
        hexDigit (b / 16) :: hexDigit (b % 16) :: toHexString tl := by
      simp [toHexString, byteToHex]
    rw [hcons]
    simp only [hexToByteList, hhi, hlo, htl, Option.bind_eq_bind,
      Option.some_bind]
    have : b / 16 * 16 + b % 16 = b := by omega
    simp [this]

theorem toHexString_length (bs : List Nat) :
    (toHexString bs).length = 2 * bs.length := by
  induction bs with
  | nil => rfl
  | cons b tl ih =>
    simp only [toHexString, List.map_cons, List.flatten_cons, List.length_append] at *
    simp [byteToHex, ih]
    omega

/- ### `src/src/crypto.ts` -/

/-- Modelled from the spec: `encodeUtf8String` lives in `src/utils/encoding`,
which is absent from src/.  §4.2 defines `deriveChildSeed` as
`hash(utf8(masterSeed), utf8(subSeed))` and §4.6 speaks of "the raw UTF-8
bytes" of a string, so the encoding of a string argument is its plain UTF-8
byte sequence. -/
def encodeUtf8String (s : List Char) : List Nat :=
  utf8Encode s

/-- Modelled from the spec: `encodePrefixedBytes` lives in
`src/utils/encoding`, absent from src/.  §4.6: `data` is length-prefixed
before hashing; the prefix is the fixed-width 64-bit length. -/
def encodePrefixedBytes (data : List Nat) : List Nat :=
  encodeNumber64 data.length ++ data

/-- Modelled from the spec: `encodeBigintAsUint64` lives in
`src/utils/encoding`, absent from src/.  §4.6: the revision is encoded as a
fixed-width 64-bit integer. -/
def encodeBigintAsUint64 (revision : Nat) : List Nat :=
  encodeNumber64 revision

/-- `hashAll` from `crypto.ts`: feeds every argument, in order, into one
blake2b-256 hasher — i.e. hashes the plain concatenation of the arguments
with no per-argument framing. -/
def hashAll (args : List (List Nat)) : List Nat :=
  hashBytes32 args.flatten

/-- `hashDataKey` from `crypto.ts`: `hashAll(encodeUtf8String(dataKey))`. -/
def hashDataKey (dataKey : List Char) : List Nat :=
  hashAll [encodeUtf8String dataKey]

/-- `deriveChildSeed` from `crypto.ts`:
`toHexString(hashAll(encodeUtf8String(masterSeed), encodeUtf8String(seed)))`. -/
def deriveChildSeed (masterSeed seed : List Char) : List Char :=
  toHexString (hashAll [encodeUtf8String masterSeed, encodeUtf8String seed])

/-- `RegistryEntry` from `src/registry`: data key, pointer data, revision. -/
structure RegistryEntry where
  dataKey : List Char
  data : List Nat
  revision : Nat
deriving DecidableEq

/-- `hashRegistryEntry` from `crypto.ts`: the data-key bytes are the decoded
hex bytes when `hashedDataKeyHex` is set and `hashDataKey`'s digest
otherwise; `none` models the exception `hexToUint8Array` raises on a
non-hex data key. -/
def hashRegistryEntry (registryEntry : RegistryEntry) (hashedDataKeyHex : Bool) :
    Option (List Nat) :=
  (if hashedDataKeyHex then hexToByteList registryEntry.dataKey
   else some (hashDataKey registryEntry.dataKey)).map
    (fun dataKeyBytes =>
      hashAll [dataKeyBytes, encodePrefixedBytes registryEntry.data,
        encodeBigintAsUint64 registryEntry.revision])

/-- The registry-entry hash the spec's words describe: the data-key bytes for
an unhashed data key are the raw UTF-8 bytes of the data key itself. -/
def specHashRegistryEntry (registryEntry : RegistryEntry) (hashedDataKeyHex : Bool) :
    Option (List Nat) :=
  (if hashedDataKeyHex then hexToByteList registryEntry.dataKey
   else some (encodeUtf8String registryEntry.dataKey)).map
    (fun dataKeyBytes =>
      hashAll [dataKeyBytes, encodePrefixedBytes registryEntry.data,
        encodeBigintAsUint64 registryEntry.revision])

/- ### Size padding scheme (§4.5) -/

/-- Modelled from the spec: `padFileSize`/`checkPaddedBlock` live in
`src/utils/encrypted_files.ts`, absent from src/ (only their test file is
present).  The tier search: the first magnitude band `n` (bounded, modelling
the overflow error on unrepresentable sizes) whose ceiling `2^n * 80 KiB`
admits the size; the band's rounding granularity is `2^n * 4 KiB`. -/
def padIdxAux (s : Nat) : Nat → Nat → Option Nat
  | _, 0 => none
  | n, fuel + 1 => if s ≤ 2 ^ n * 81920 then some n else padIdxAux s (n + 1) fuel

/-- Band index for a size, `none` on overflow. -/
def padIdx (s : Nat) : Option Nat :=
  padIdxAux s 0 53

/-- The least multiple of `b` at or above `s`, written as the spec's tests
exercise it (round up only when not already a multiple). -/
def roundUpMult (s b : Nat) : Nat :=
  if s % b = 0 then s else s - s % b + b

/-- Rounding within a band, with the fixed minimum output of 4096 bytes. -/
def padTo (s b : Nat) : Nat :=
  max 4096 (roundUpMult s b)

/-- Modelled from the spec (§4.5): deterministic tiered rounding of a
container size to the padded-size set; `none` is the overflow error. -/
def padFileSize (s : Nat) : Option Nat :=
  (padIdx s).map (fun n => padTo s (2 ^ n * 4096))

/-- Modelled from the spec (§4.5): membership test for the padded-size set,
`none` on the same overflow inputs as `padFileSize`. -/
def checkPaddedBlock (s : Nat) : Option Bool :=
  (padIdx s).map (fun n => s % (2 ^ n * 4096) == 0)

theorem padIdxAux_ge (s : Nat) :
    ∀ f n m, padIdxAux s n f = some m → n ≤ m := by
  intro f
  induction f with
  | zero => intro n m h; simp [padIdxAux] at h
  | succ f ih =>
    intro n m h
    rw [padIdxAux] at h
    by_cases hc : s ≤ 2 ^ n * 81920
    · rw [if_pos hc] at h
      simp only [Option.some.injEq] at h
      omega
    · rw [if_neg hc] at h
      have := ih (n + 1) m h
      omega

theorem padIdxAux_lt_add (s : Nat) :
    ∀ f n m, padIdxAux s n f = some m → m < n + f := by
  intro f
  induction f with
  | zero => intro n m h; simp [padIdxAux] at h
  | succ f ih =>
    intro n m h
    rw [padIdxAux] at h
    by_cases hc : s ≤ 2 ^ n * 81920
    · rw [if_pos hc] at h
      simp only [Option.some.injEq] at h
      omega
    · rw [if_neg hc] at h
      have := ih (n + 1) m h
      omega

theorem padIdxAux_le (s : Nat) :
    ∀ f n m, padIdxAux s n f = some m → s ≤ 2 ^ m * 81920 := by
  intro f
  induction f with
  | zero => intro n m h; simp [padIdxAux] at h
  | succ f ih =>
    intro n m h
    rw [padIdxAux] at h
    by_cases hc : s ≤ 2 ^ n * 81920
    · rw [if_pos hc] at h
      simp only [Option.some.injEq] at h
      subst h
      exact hc
    · rw [if_neg hc] at h
      exact ih (n + 1) m h

theorem padIdxAux_min (s : Nat) :
    ∀ f n m, padIdxAux s n f = some m → ∀ k, n ≤ k → k < m → 2 ^ k * 81920 < s := by
  intro f
  induction f with
  | zero => intro n m h; simp [padIdxAux] at h
  | succ f ih =>
    intro n m h k hnk hkm
    rw [padIdxAux] at h
    by_cases hc : s ≤ 2 ^ n * 81920
    · rw [if_pos hc] at h
      simp only [Option.some.injEq] at h
      omega
    · rw [if_neg hc] at h
      rcases Nat.eq_or_lt_of_le hnk with rfl | hlt
      · omega
      · exact ih (n + 1) m h k hlt hkm

theorem padIdxAux_complete (s : Nat) :
    ∀ f n N, n ≤ N → N < n + f → s ≤ 2 ^ N * 81920 →
      ∃ m, padIdxAux s n f = some m ∧ m ≤ N := by
  intro f
  induction f with
  | zero => intro n N h1 h2; omega
  | succ f ih =>
    intro n N h1 h2 hs
    rw [padIdxAux]
    by_cases hc : s ≤ 2 ^ n * 81920
    · exact ⟨n, by rw [if_pos hc], h1⟩
    · have hne : n ≠ N := by rintro rfl; exact hc hs
      obtain ⟨m, hm, hmN⟩ := ih (n + 1) N (by omega) (by omega) hs
      exact ⟨m, by rw [if_neg hc]; exact hm, hmN⟩

theorem padIdxAux_mono (s1 s2 : Nat) (hs : s1 ≤ s2) :
    ∀ f n m2, padIdxAux s2 n f = some m2 →
      ∃ m1, padIdxAux s1 n f = some m1 ∧ m1 ≤ m2 := by
  intro f
  induction f with
  | zero => intro n m2 h; simp [padIdxAux] at h
  | succ f ih =>
    intro n m2 h
    rw [padIdxAux] at h
    rw [padIdxAux]
    by_cases hc : s2 ≤ 2 ^ n * 81920
    · rw [if_pos hc] at h
      simp only [Option.some.injEq] at h
      exact ⟨n, by rw [if_pos (by omega)], by omega⟩
    · rw [if_neg hc] at h
      have hm2 : n + 1 ≤ m2 := padIdxAux_ge s2 f (n + 1) m2 h
      by_cases hc1 : s1 ≤ 2 ^ n * 81920
      · exact ⟨n, by rw [if_pos hc1], by omega⟩
      · obtain ⟨m1, hm1, hle⟩ := ih (n + 1) m2 h
        refine ⟨m1, ?_, hle⟩
        rw [if_neg hc1]
        exact hm1

theorem roundUpMult_dvd (s b : Nat) : b ∣ roundUpMult s b := by
  unfold roundUpMult
  split
  · exact Nat.dvd_of_mod_eq_zero (by assumption)
  · have hdm := Nat.div_add_mod s b
    have hle := Nat.mod_le s b
    refine ⟨s / b + 1, ?_⟩
    rw [Nat.mul_add, Nat.mul_one]
    omega

theorem roundUpMult_ge (s b : Nat) (hb : 0 < b) : s ≤ roundUpMult s b := by
  unfold roundUpMult
  split
  · exact Nat.le_refl s
  · have hlt := Nat.mod_lt s hb
    have hle := Nat.mod_le s b
    omega

theorem roundUpMult_le (s b M : Nat) (hb : 0 < b) (hM : b ∣ M) (hsM : s ≤ M) :
    roundUpMult s b ≤ M := by
  unfold roundUpMult
  split
  · exact hsM
  · obtain ⟨k, rfl⟩ := hM
    have hdm := Nat.div_add_mod s b
    have hlt := Nat.mod_lt s hb
    have hdiv : s / b < k := by
      rcases Nat.lt_or_ge (s / b) k with h | h
      · exact h
      · exfalso
        have := Nat.mul_le_mul_left b h
        omega
    have := Nat.mul_le_mul_left b hdiv
    have hsucc : b * (s / b) + b ≤ b * k := by
      have h2 := Nat.mul_le_mul_left b hdiv
      rw [Nat.mul_comm] at h2
      calc b * (s / b) + b = b * (s / b + 1) := by rw [Nat.mul_add, Nat.mul_one]
        _ ≤ b * k := Nat.mul_le_mul_left b hdiv
    omega

theorem blockDvd {n1 n2 : Nat} (h : n1 ≤ n2) : (2 ^ n1 * 4096 : Nat) ∣ 2 ^ n2 * 4096 :=
  mul_dvd_mul_right (Nat.pow_dvd_pow 2 h) 4096

/-- Core description of a successful `padFileSize`: its band, divisibility by
the band's granularity, and its bounds. -/
theorem padFileSize_core (s p : Nat) (h : padFileSize s = some p) :
    ∃ n, padIdx s = some n ∧ p = padTo s (2 ^ n * 4096) ∧
      (2 ^ n * 4096) ∣ p ∧ s ≤ p ∧ 4096 ≤ p ∧ p ≤ 2 ^ n * 81920 ∧ n < 53 := by
  unfold padFileSize at h
  obtain ⟨n, hidx, hval⟩ := Option.map_eq_some'.mp h
  have hb : 0 < 2 ^ n * 4096 := by positivity
  have hbound : s ≤ 2 ^ n * 81920 := padIdxAux_le s 53 0 n hidx
  have hn53 : n < 53 := by have := padIdxAux_lt_add s 53 0 n hidx; omega
  have hdvd20 : (2 ^ n * 4096 : Nat) ∣ 2 ^ n * 81920 := ⟨20, by ring⟩
  have hr_le : roundUpMult s (2 ^ n * 4096) ≤ 2 ^ n * 81920 :=
    roundUpMult_le s _ _ hb hdvd20 hbound
  have hr_ge : s ≤ roundUpMult s (2 ^ n * 4096) := roundUpMult_ge s _ hb
  have hr_dvd : (2 ^ n * 4096 : Nat) ∣ roundUpMult s (2 ^ n * 4096) := roundUpMult_dvd s _
  have hb81920 : (4096 : Nat) ≤ 2 ^ n * 81920 := by
    have : (1 : Nat) ≤ 2 ^ n := Nat.one_le_two_pow
    calc (4096 : Nat) ≤ 81920 := by omega
      _ = 1 * 81920 := by omega
      _ ≤ 2 ^ n * 81920 := Nat.mul_le_mul_right 81920 this
  have hdvd : (2 ^ n * 4096 : Nat) ∣ padTo s (2 ^ n * 4096) := by
    rcases Nat.eq_zero_or_pos n with rfl | hpos
    · rcases Nat.le_total (roundUpMult s (2 ^ 0 * 4096)) 4096 with hle | hle
      · rw [padTo, Nat.max_eq_left hle]
        exact ⟨1, by norm_num⟩
      · rw [padTo, Nat.max_eq_right hle]
        exact hr_dvd
    · have hklow : 2 ^ (n - 1) * 81920 < s :=
        padIdxAux_min s 53 0 n hidx (n - 1) (by omega) (by omega)
      have h1 : (81920 : Nat) ≤ 2 ^ (n - 1) * 81920 := by
        have : (1 : Nat) ≤ 2 ^ (n - 1) := Nat.one_le_two_pow
        calc (81920 : Nat) = 1 * 81920 := by omega
          _ ≤ 2 ^ (n - 1) * 81920 := Nat.mul_le_mul_right 81920 this
      have hbig : 4096 ≤ roundUpMult s (2 ^ n * 4096) := by omega
      rw [padTo, Nat.max_eq_right hbig]
      exact hr_dvd
  refine ⟨n, hidx, hval.symm, ?_, ?_, ?_, ?_, hn53⟩
  · rw [← hval]; exact hdvd
  · rw [← hval]; exact Nat.le_trans hr_ge (Nat.le_max_right _ _)
  · rw [← hval]; exact Nat.le_max_left _ _
  · rw [← hval]; exact Nat.max_le.mpr ⟨hb81920, hr_le⟩

theorem padFileSize_ge (s p : Nat) (h : padFileSize s = some p) : s ≤ p := by
  obtain ⟨n, _, _, _, hge, _, _, _⟩ := padFileSize_core s p h
  exact hge

theorem padFileSize_min_le (s p : Nat) (h : padFileSize s = some p) : 4096 ≤ p := by
  obtain ⟨n, _, _, _, _, hmin, _, _⟩ := padFileSize_core s p h
  exact hmin

theorem padIdx_of_le_bound (s N : Nat) (hN : N < 53) (hs : s ≤ 2 ^ N * 81920) :
    ∃ m, padIdx s = some m ∧ m ≤ N :=
  padIdxAux_complete s 53 0 N (Nat.zero_le N) (by omega) hs

/-- A size `padFileSize` produced decomposes through a band index whose
granularity divides it. -/
theorem padded_band (s p : Nat) (h : padFileSize s = some p) :
    ∃ m, padIdx p = some m ∧ p % (2 ^ m * 4096) = 0 ∧ 4096 ≤ p := by
  obtain ⟨n, hidx, hval, hdvd, hge, hmin, hbound, hn53⟩ := padFileSize_core s p h
  obtain ⟨m, hm, hmn⟩ := padIdx_of_le_bound p n hn53 hbound
  have hmb : (2 ^ m * 4096 : Nat) ∣ p := dvd_trans (blockDvd hmn) hdvd
  exact ⟨m, hm, Nat.mod_eq_zero_of_dvd hmb, hmin⟩

/-- Agreement of the two halves of the padding scheme:
`checkPaddedBlock (padFileSize s)` is always `true`. -/
theorem checkPaddedBlock_padFileSize (s p : Nat) (h : padFileSize s = some p) :
    checkPaddedBlock p = some true := by
  obtain ⟨m, hm, hmod, _⟩ := padded_band s p h
  unfold checkPaddedBlock
  rw [hm]
  simp [hmod]

/-- Idempotence of `padFileSize`. -/
theorem padFileSize_idem (s p : Nat) (h : padFileSize s = some p) :
    padFileSize p = some p := by
  obtain ⟨m, hm, hmod, hmin⟩ := padded_band s p h
  unfold padFileSize
  rw [hm]
  simp only [Option.map_some']
  unfold padTo roundUpMult
  rw [if_pos hmod, Nat.max_eq_right hmin]

/-- Monotonicity of `padFileSize`. -/
theorem padFileSize_mono (s1 s2 p1 p2 : Nat) (hs : s1 ≤ s2)
    (h1 : padFileSize s1 = some p1) (h2 : padFileSize s2 = some p2) : p1 ≤ p2 := by
  obtain ⟨n1, hidx1, hval1, hdvd1, hge1, hmin1, hbound1, _⟩ := padFileSize_core s1 p1 h1
  obtain ⟨n2, hidx2, hval2, hdvd2, hge2, hmin2, hbound2, _⟩ := padFileSize_core s2 p2 h2
  have hn : n1 ≤ n2 := by
    unfold padIdx at hidx1 hidx2
    obtain ⟨m1, hm1, hle⟩ := padIdxAux_mono s1 s2 hs 53 0 n2 hidx2
    rw [hidx1] at hm1
    simp only [Option.some.injEq] at hm1
    omega
  have hdvdp2 : (2 ^ n1 * 4096 : Nat) ∣ p2 := dvd_trans (blockDvd hn) hdvd2
  have hr : roundUpMult s1 (2 ^ n1 * 4096) ≤ p2 :=
    roundUpMult_le s1 _ p2 (by positivity) hdvdp2 (Nat.le_trans hs hge2)
  rw [hval1]
  exact Nat.max_le.mpr ⟨hmin2, hr⟩

/-- The fixed minimum: every size at or below 4096 pads to exactly 4096. -/
theorem padFileSize_of_le_min (s : Nat) (hs : s ≤ 4096) :
    padFileSize s = some 4096 := by
  obtain ⟨m, hm, hm0⟩ := padIdx_of_le_bound s 0 (by omega) (by simpa using (by omega : s ≤ 81920))
  have : m = 0 := by omega
  subst this
  unfold padFileSize
  rw [hm]
  simp only [Option.map_some', pow_zero, one_mul]
  have hval : roundUpMult s 4096 ≤ 4096 := by
    unfold roundUpMult
    split <;> omega
  rw [padTo, Nat.max_eq_left hval]

/- ### Path seed hierarchy (§4.3) -/

/-- Splits a path at every slash, keeping empty pieces (the later filter
drops them, as the spec's normalization prescribes). -/
def splitSlash : List Char → List (List Char)
  | [] => [[]]
  | c :: rest =>
    if c = '/' then [] :: splitSlash rest
    else
      match splitSlash rest with
      | [] => [[c]]
      | seg :: segs => (c :: seg) :: segs

/-- The ordered non-empty segments of a sub-path. -/
def pathSegments (subPath : List Char) : List (List Char) :=
  (splitSlash subPath).filter (fun seg => !seg.isEmpty)

/-- One derivation step: the next directory-level seed is the wide hash of
the current seed bytes followed by the segment's UTF-8 bytes. -/
def pathSeedStep (seedBytes : List Nat) (segment : List Char) : List Nat :=
  hashWide (seedBytes ++ utf8Encode segment)

/-- Modelled from the spec (§4.3): `deriveEncryptedPathSeed` lives in
`src/utils/encrypted_files.ts`, absent from src/ (only its test file is
present).  Validates that the path seed is a 128-hex-character directory
seed and that the sub-path has a non-empty segment, folds the wide
derivation over all segments, and truncates to 32 bytes only for a file
leaf; `none` models the validation errors. -/
def deriveEncryptedPathSeed (pathSeed : List Char) (subPath : List Char)
    (isDirectory : Bool) : Option (List Char) :=
  match hexToByteList pathSeed with
  | none => none
  | some seedBytes =>
    if seedBytes.length = 64 then
      match pathSegments subPath with
      | [] => none
      | seg :: segs =>
        let finalSeed := (seg :: segs).foldl pathSeedStep seedBytes
        some (toHexString (if isDirectory then finalSeed else finalSeed.take 32))
    else none

theorem splitSlash_ne_nil (l : List Char) : splitSlash l ≠ [] := by
  induction l with
  | nil => simp [splitSlash]
  | cons c rest ih =>
    rw [splitSlash]
    split
    · simp
    · split
      · simp
      · simp

theorem splitSlash_append (a b : List Char) :
    splitSlash (a ++ '/' :: b) = splitSlash a ++ splitSlash b := by
  induction a with
  | nil => simp [splitSlash]
  | cons c rest ih =>
    rw [List.cons_append, splitSlash, splitSlash, ih]
    by_cases hc : c = '/'
    · rw [if_pos hc, if_pos hc, List.cons_append]
    · rw [if_neg hc, if_neg hc]
      rcases hseg : splitSlash rest with _ | ⟨seg, segs⟩
      · exact absurd hseg (splitSlash_ne_nil rest)
      · simp

theorem pathSegments_append (a b : List Char) :
    pathSegments (a ++ '/' :: b) = pathSegments a ++ pathSegments b := by
  unfold pathSegments
  rw [splitSlash_append, List.filter_append]

/-- The seed bytes after at least one derivation step are a wide-hash image:
64 bytes, all below 256. -/
theorem foldl_pathSeedStep_shape (seedBytes : List Nat) (seg : List Char)
    (segs : List (List Char)) :
    ((seg :: segs).foldl pathSeedStep seedBytes).length = 64 ∧
      ∀ b ∈ (seg :: segs).foldl pathSeedStep seedBytes, b < 256 := by
  induction segs generalizing seedBytes seg with
  | nil => exact ⟨hashWide_length _, hashWide_lt _⟩
  | cons seg2 segs ih =>
    rw [List.foldl_cons]
    exact ih (pathSeedStep seedBytes seg) seg2

/-- A 128-hex-character (64-byte) directory path seed. -/
def isDirectorySeed (pathSeed : List Char) : Bool :=
  match hexToByteList pathSeed with
  | some bs => bs.length == 64
  | none => false

/-- Whether a sub-path has at least one non-empty segment. -/
def hasSegments (subPath : List Char) : Bool :=
  !(pathSegments subPath).isEmpty

/-- `deriveEncryptedPathSeed` evaluated on a directory seed and a sub-path
with at least one segment: the fold over its segments. -/
theorem deriveEncryptedPathSeed_eq (R subPath : List Char) (d : Bool)
    (seedBytes : List Nat) (hbs : hexToByteList R = some seedBytes)
    (hlen : seedBytes.length = 64) (seg : List Char) (segs : List (List Char))
    (hsegs : pathSegments subPath = seg :: segs) :
    deriveEncryptedPathSeed R subPath d =
      some (toHexString
        (if d then (seg :: segs).foldl pathSeedStep seedBytes
         else ((seg :: segs).foldl pathSeedStep seedBytes).take 32)) := by
  unfold deriveEncryptedPathSeed
  rw [hbs, hsegs]
  simp [hlen]

/-- C1.  Compositionality of the path-seed hierarchy: deriving the seed of
`a ++ "/" ++ b` in one pass from a directory seed `R` agrees — for a file
leaf and for a directory leaf alike, and for arbitrary sub-paths `a`, `b`,
hence for arbitrarily deep decompositions — with first deriving the
directory seed of `a` and then deriving `b` from it: the derived seed
depends only on the root seed and the full path string. -/
theorem deriveEncryptedPathSeed_composes (R a b : List Char) (d : Bool)
    (hR : isDirectorySeed R = true) (ha : hasSegments a = true)
    (hb : hasSegments b = true) :
    (deriveEncryptedPathSeed R a true).bind
        (fun R2 => deriveEncryptedPathSeed R2 b d) =
      deriveEncryptedPathSeed R (a ++ '/' :: b) d := by
  unfold isDirectorySeed at hR
  rcases hbs : hexToByteList R with _ | seedBytes
  · rw [hbs] at hR; simp at hR
  · rw [hbs] at hR
    have hlen : seedBytes.length = 64 := by simpa using hR
    rcases hsa : pathSegments a with _ | ⟨segA, segsA⟩
    · unfold hasSegments at ha; rw [hsa] at ha; simp at ha
    · rcases hsb : pathSegments b with _ | ⟨segB, segsB⟩
      · unfold hasSegments at hb; rw [hsb] at hb; simp at hb
      · have hshape := foldl_pathSeedStep_shape seedBytes segA segsA
        have hrt : hexToByteList
            (toHexString ((segA :: segsA).foldl pathSeedStep seedBytes)) =
            some ((segA :: segsA).foldl pathSeedStep seedBytes) :=
          hexToByteList_toHexString _ hshape.2
        have h1 : deriveEncryptedPathSeed R a true =
            some (toHexString ((segA :: segsA).foldl pathSeedStep seedBytes)) := by
          rw [deriveEncryptedPathSeed_eq R a true seedBytes hbs hlen segA segsA hsa]
          simp
        have h2 : deriveEncryptedPathSeed
            (toHexString ((segA :: segsA).foldl pathSeedStep seedBytes)) b d =
            some (toHexString
              (if d then ((segB :: segsB).foldl pathSeedStep
                  ((segA :: segsA).foldl pathSeedStep seedBytes))
               else (((segB :: segsB).foldl pathSeedStep
                  ((segA :: segsA).foldl pathSeedStep seedBytes))).take 32)) :=
          deriveEncryptedPathSeed_eq _ b d _ hrt hshape.1 segB segsB hsb
        have hsegs : pathSegments (a ++ '/' :: b) =
            segA :: (segsA ++ segB :: segsB) := by
          rw [pathSegments_append, hsa, hsb]
          rfl
        have h3 : deriveEncryptedPathSeed R (a ++ '/' :: b) d =
            some (toHexString
              (if d then ((segA :: (segsA ++ segB :: segsB)).foldl
                  pathSeedStep seedBytes)
               else ((segA :: (segsA ++ segB :: segsB)).foldl
                  pathSeedStep seedBytes).take 32)) :=
          deriveEncryptedPathSeed_eq R _ d seedBytes hbs hlen _ _ hsegs
        rw [h1, Option.some_bind, h2, h3]
        have hfold : (segA :: (segsA ++ segB :: segsB)).foldl pathSeedStep seedBytes =
            (segB :: segsB).foldl pathSeedStep
              ((segA :: segsA).foldl pathSeedStep seedBytes) := by
          rw [← List.foldl_append]
          rfl
        rw [hfold]

/-- C4.  Padding laws: `padFileSize` is monotonic and idempotent, returns
4096 for every input at or below 4096, and `checkPaddedBlock` accepts every
`padFileSize` output (sizes on which the scheme overflows are outside the
valid domain and carry no `some` value). -/
theorem padFileSize_laws :
    (∀ s1 s2 p1 p2, s1 ≤ s2 → padFileSize s1 = some p1 →
      padFileSize s2 = some p2 → p1 ≤ p2) ∧
    (∀ s p, padFileSize s = some p → padFileSize p = some p) ∧
    (∀ s, s ≤ 4096 → padFileSize s = some 4096) ∧
    (∀ s p, padFileSize s = some p → checkPaddedBlock p = some true) :=
  ⟨fun s1 s2 p1 p2 hs h1 h2 => padFileSize_mono s1 s2 p1 p2 hs h1 h2,
   fun s p h => padFileSize_idem s p h,
   fun s hs => padFileSize_of_le_min s hs,
   fun s p h => checkPaddedBlock_padFileSize s p h⟩

theorem padFileSize_laws_witness :
    (1000 ≤ 5000 ∧ 4096 ≤ 8192) ∧ padFileSize 8192 = some 8192 ∧
      padFileSize 100 = some 4096 ∧ checkPaddedBlock 8192 = some true := by
  refine ⟨⟨by norm_num, ?_⟩, ?_, ?_, ?_⟩
  · exact padFileSize_laws.1 1000 5000 4096 8192 (by norm_num) (by decide) (by decide)
  · exact padFileSize_laws.2.1 5000 8192 (by decide)
  · exact padFileSize_laws.2.2.1 100 (by norm_num)
  · exact padFileSize_laws.2.2.2 5000 8192 (by decide)

/-- C6.  The published reference fixture points of the padding table hold
exactly. -/
theorem padFileSize_fixtures :
    padFileSize 1024 = some 4096 ∧ padFileSize 5120 = some 8192 ∧
    padFileSize 107520 = some 114688 ∧ padFileSize 312320 = some 327680 ∧
    padFileSize 359424 = some 360448 ∧ padFileSize 1048576 = some 1048576 ∧
    padFileSize 104857600 = some 109051904 := by
  refine ⟨?_, ?_, ?_, ?_, ?_, ?_, ?_⟩ <;> decide

set_option maxRecDepth 8000 in
/-- C2, counterexample.  With an unhashed data key the code hashes the data
key (`hashDataKey`) before feeding it to the registry-entry hash; it does
not use the raw UTF-8 bytes the claim describes, and the two canonical
forms already differ on the entry `{dataKey := "k", data := [1, 2],
revision := 3}`. -/
theorem hashRegistryEntry_ne_spec_raw_bytes :
    hashRegistryEntry ⟨['k'], [1, 2], 3⟩ false ≠
      specHashRegistryEntry ⟨['k'], [1, 2], 3⟩ false := by
  decide

/-- C2, amended.  `hashRegistryEntry e h` is
`hash(dataKeyBytes, lengthPrefixedDataBytes, revision as a fixed-width
64-bit integer)`, where `dataKeyBytes` is the hex-decoded bytes of
`e.dataKey` when `h` is true and the 32-byte hash of the UTF-8 bytes of
`e.dataKey` (`hashDataKey`) when `h` is false. -/
theorem hashRegistryEntry_canonical :
    (∀ e : RegistryEntry, hashRegistryEntry e false =
      some (hashAll [hashDataKey e.dataKey, encodePrefixedBytes e.data,
        encodeBigintAsUint64 e.revision])) ∧
    (∀ (e : RegistryEntry) (dk : List Nat), hexToByteList e.dataKey = some dk →
      hashRegistryEntry e true =
        some (hashAll [dk, encodePrefixedBytes e.data,
          encodeBigintAsUint64 e.revision])) := by
  constructor
  · intro e
    rfl
  · intro e dk h
    simp [hashRegistryEntry, h]

theorem hashRegistryEntry_canonical_witness :
    hexToByteList ['a', 'b'] = some [171] ∧
    hashRegistryEntry ⟨['a', 'b'], [5], 1⟩ true =
      some (hashAll [[171], encodePrefixedBytes [5], encodeBigintAsUint64 1]) :=
  ⟨by decide, hashRegistryEntry_canonical.2 ⟨['a', 'b'], [5], 1⟩ [171] (by decide)⟩

/-- C7, counterexample.  `deriveChildSeed` hashes the plain concatenation of
the UTF-8 encodings of its arguments, so the distinct pair
`A = "ab", B = "abab"` — whose concatenations agree in both orders —
defeats universal non-commutativity. -/
theorem deriveChildSeed_comm_pair :
    deriveChildSeed ['a', 'b'] ['a', 'b', 'a', 'b'] =
      deriveChildSeed ['a', 'b', 'a', 'b'] ['a', 'b'] ∧
    (['a', 'b'] : List Char) ≠ ['a', 'b', 'a', 'b'] := by
  constructor
  · decide
  · decide

/-- C7, amended.  Swapping the arguments of `deriveChildSeed` yields the
same result whenever the UTF-8 concatenations of the two orders coincide —
which can happen for distinct arguments such as `"ab"`/`"abab"` — because
the two arguments are hashed as one unprefixed concatenation; only pairs
whose two concatenations differ can produce distinct child seeds. -/
theorem deriveChildSeed_swap_of_concat_comm :
    ∀ A B : List Char,
      utf8Encode A ++ utf8Encode B = utf8Encode B ++ utf8Encode A →
      deriveChildSeed A B = deriveChildSeed B A := by
  intro A B h
  unfold deriveChildSeed hashAll encodeUtf8String
  simp only [List.flatten_cons, List.flatten_nil, List.append_nil]
  rw [h]

theorem deriveChildSeed_swap_of_concat_comm_witness :
    utf8Encode ['x'] ++ utf8Encode ['x', 'x'] =
        utf8Encode ['x', 'x'] ++ utf8Encode ['x'] ∧
      deriveChildSeed ['x'] ['x', 'x'] = deriveChildSeed ['x', 'x'] ['x'] :=
  ⟨by decide, deriveChildSeed_swap_of_concat_comm ['x'] ['x', 'x'] (by decide)⟩

/-- C8.  `deriveChildSeed` depends only on the concatenation of the UTF-8
encodings of its two arguments, because `hashAll` hashes the plain
concatenation of its arguments with no per-argument length prefix or
separator. -/
theorem deriveChildSeed_concat_only :
    ∀ A B A2 B2 : List Char,
      utf8Encode A ++ utf8Encode B = utf8Encode A2 ++ utf8Encode B2 →
      deriveChildSeed A B = deriveChildSeed A2 B2 := by
  intro A B A2 B2 h
  unfold deriveChildSeed hashAll encodeUtf8String
  simp only [List.flatten_cons, List.flatten_nil, List.append_nil]
  rw [h]

theorem deriveChildSeed_concat_only_witness :
    utf8Encode ['a', 'b'] ++ utf8Encode ['c'] =
        utf8Encode ['a'] ++ utf8Encode ['b', 'c'] ∧
      deriveChildSeed ['a', 'b'] ['c'] = deriveChildSeed ['a'] ['b', 'c'] :=
  ⟨by decide, deriveChildSeed_concat_only ['a', 'b'] ['c'] ['a'] ['b', 'c'] (by decide)⟩

set_option maxRecDepth 8000 in
theorem deriveEncryptedPathSeed_composes_witness :
    isDirectorySeed (List.replicate 128 'a') = true ∧
    hasSegments ['p'] = true ∧ hasSegments ['q'] = true ∧
    (deriveEncryptedPathSeed (List.replicate 128 'a') ['p'] true).bind
        (fun R2 => deriveEncryptedPathSeed R2 ['q'] false) =
      deriveEncryptedPathSeed (List.replicate 128 'a') (['p'] ++ '/' :: ['q']) false :=
  ⟨by decide, by decide, by decide,
    deriveEncryptedPathSeed_composes _ _ _ false (by decide) (by decide) (by decide)⟩

/- ### Encrypted container codec (§4.4) -/

def ENCRYPTION_KEY_LENGTH : Nat := 32

def ENCRYPTION_NONCE_LENGTH : Nat := 24

def ENCRYPTION_HIDDEN_FIELD_METADATA_LENGTH : Nat := 16

def ENCRYPTED_JSON_RESPONSE_VERSION : Nat := 1

/-- The fixed-length metadata region: the single version byte followed by
zero filler. -/
def METADATA_REGION : List Nat :=
  ENCRYPTED_JSON_RESPONSE_VERSION :: List.replicate 15 0

/-- Stand-in key stream for the secret-box cipher: a byte stream derived
from key and nonce (xsalsa20 itself is an external primitive, not part of
the repository's sources). -/
def keystream (key nonce : List Nat) (len : Nat) : List Nat :=
  (List.range len).map (fun i => (mixByte 3 (key ++ nonce) + i) % 256)

/-- Byte-wise XOR of two byte lists. -/
def xorBytes (a b : List Nat) : List Nat :=
  List.zipWith (fun x y => x ^^^ y) a b

/-- XOR of the input bytes whose position is congruent to `k` modulo 16,
starting the position count at `i`. -/
def strideXor (k : Nat) : Nat → List Nat → Nat
  | _, [] => 0
  | i, x :: xs => (if i % 16 = k then x else 0) ^^^ strideXor k (i + 1) xs

/-- Stand-in 16-byte authenticator for the secret-box construction
(poly1305 is an external primitive): byte `k` is the XOR of the input bytes
at positions congruent to `k` modulo 16, so it covers every input byte. -/
def blockXorMac (input : List Nat) : List Nat :=
  (List.range 16).map (fun k => strideXor k 0 input)

/-- The authenticated ciphertext of a payload: the padded plaintext XORed
with the key stream. -/
def sealedBytes (payload key nonce : List Nat) (total : Nat) : List Nat :=
  let plain := payload ++ List.replicate (total - 56 - payload.length) 0
  xorBytes plain (keystream key nonce plain.length)

/-- Modelled from the spec (§4.4): `encryptJSONFile` lives in
`src/utils/encrypted_files.ts`, absent from src/ (only its test file is
present).  The serialized payload is padded so that
`nonce ++ metadata ++ tag ++ ciphertext` lands exactly on the padded size
of `payload length + 56` (nonce 24 + metadata 16 + authenticator 16), the
container layout the tests probe by offset; `none` models the overflow
error and the key/nonce length validation. -/
def encryptJSONFile (payload key nonce : List Nat) : Option (List Nat) :=
  if key.length = ENCRYPTION_KEY_LENGTH ∧ nonce.length = ENCRYPTION_NONCE_LENGTH then
    match padFileSize (payload.length + 56) with
    | some total =>
      let ct := sealedBytes payload key nonce total
      some (nonce ++ (METADATA_REGION ++ (blockXorMac (key ++ nonce ++ ct) ++ ct)))
    | none => none
  else none

/-- The decryption outcomes: the size format error, the version-mismatch
format error naming the found and the expected version, and the single
undifferentiated authentication/decryption error. -/
inductive DecryptErr where
  | sizeErr : DecryptErr
  | versionErr (found expected : Nat) : DecryptErr
  | authErr : DecryptErr
deriving DecidableEq

/-- Modelled from the spec (§4.4): `decryptJSONFile` lives in
`src/utils/encrypted_files.ts`, absent from src/ (only its test file is
present).  Rejects a length outside the padded-size set first, then reads
the nonce and metadata regions at their fixed offsets and rejects an
unsupported version byte before touching the ciphertext, and only then
checks the authenticator and decrypts. -/
def decryptJSONFile (data key : List Nat) : Except DecryptErr (List Nat) :=
  if checkPaddedBlock data.length = some true then
    let nonce := data.take ENCRYPTION_NONCE_LENGTH
    let rest1 := data.drop ENCRYPTION_NONCE_LENGTH
    let meta := rest1.take ENCRYPTION_HIDDEN_FIELD_METADATA_LENGTH
    let version := meta.headD 0
    if version = ENCRYPTED_JSON_RESPONSE_VERSION then
      let rest2 := rest1.drop ENCRYPTION_HIDDEN_FIELD_METADATA_LENGTH
      let tag := rest2.take 16
      let ct := rest2.drop 16
      if blockXorMac (key ++ nonce ++ ct) = tag then
        Except.ok (xorBytes ct (keystream key nonce ct.length))
      else Except.error DecryptErr.authErr
    else Except.error (DecryptErr.versionErr version ENCRYPTED_JSON_RESPONSE_VERSION)
  else Except.error DecryptErr.sizeErr

/- ### Facts about the container pieces -/

theorem keystream_length (key nonce : List Nat) (len : Nat) :
    (keystream key nonce len).length = len := by
  simp [keystream]

theorem xorBytes_length (a b : List Nat) (h : a.length = b.length) :
    (xorBytes a b).length = a.length := by
  simp [xorBytes, h]

theorem blockXorMac_length (input : List Nat) : (blockXorMac input).length = 16 := by
  simp [blockXorMac]

theorem sealedBytes_length (payload key nonce : List Nat) (total : Nat)
    (h : payload.length + 56 ≤ total) :
    (sealedBytes payload key nonce total).length = total - 56 := by
  unfold sealedBytes
  rw [xorBytes_length _ _ (by rw [keystream_length])]
  simp
  omega

theorem strideXor_append (k : Nat) (l1 l2 : List Nat) :
    ∀ i, strideXor k i (l1 ++ l2) = strideXor k i l1 ^^^ strideXor k (i + l1.length) l2 := by
  induction l1 with
  | nil => intro i; simp [strideXor]
  | cons x xs ih =>
    intro i
    rw [List.cons_append, strideXor, strideXor, ih (i + 1), Nat.xor_assoc]
    have : i + 1 + xs.length = i + (x :: xs).length := by simp; omega
    rw [this]

theorem xor_left_cancel {a b c : Nat} (h : a ^^^ b = a ^^^ c) : b = c := by
  have h2 := congrArg (fun t => a ^^^ t) h
  simpa [← Nat.xor_assoc, Nat.xor_self, Nat.zero_xor] using h2

theorem xor_right_cancel {a b c : Nat} (h : a ^^^ c = b ^^^ c) : a = b := by
  have h2 : c ^^^ a = c ^^^ b := by
    rw [Nat.xor_comm c a, Nat.xor_comm c b]
    exact h
  exact xor_left_cancel h2

theorem xor_pow_ne (x j : Nat) : x ^^^ 2 ^ j ≠ x := by
  intro h
  have h0 : x ^^^ 2 ^ j = x ^^^ 0 := by simpa [Nat.xor_zero] using h
  have := xor_left_cancel h0
  have hpos : 0 < 2 ^ j := Nat.pos_pow_of_pos j (by omega)
  omega

/-- Flipping one byte of the input changes the block-XOR authenticator. -/
theorem blockXorMac_flip (pre suf : List Nat) (x j : Nat) :
    blockXorMac (pre ++ (x ^^^ 2 ^ j) :: suf) ≠ blockXorMac (pre ++ x :: suf) := by
  intro h
  have hk : pre.length % 16 < 16 := Nat.mod_lt _ (by omega)
  have hmap := congrArg (fun l => l[pre.length % 16]?) h
  simp only [blockXorMac, List.getElem?_map, List.getElem?_range hk,
    Option.map_some'] at hmap
  rw [strideXor_append, strideXor_append] at hmap
  simp only [Nat.zero_add, strideXor, eq_self_iff_true, if_true,
    Option.some.injEq] at hmap
  exact xor_pow_ne x j (xor_right_cancel (xor_left_cancel hmap))

theorem take_len_append {α : Type} (l1 l2 : List α) (n : Nat) (h : l1.length = n) :
    (l1 ++ l2).take n = l1 := by
  rw [← h]
  exact List.take_left l1 l2

theorem drop_len_append {α : Type} (l1 l2 : List α) (n : Nat) (h : l1.length = n) :
    (l1 ++ l2).drop n = l2 := by
  rw [← h]
  exact List.drop_left l1 l2

/-- A successful encryption: validated lengths, a padded total, and the
container's exact region structure. -/
theorem encryptJSONFile_parts (payload key nonce c : List Nat)
    (h : encryptJSONFile payload key nonce = some c) :
    key.length = 32 ∧ nonce.length = 24 ∧
    ∃ total, padFileSize (payload.length + 56) = some total ∧
      payload.length + 56 ≤ total ∧
      c = nonce ++ (METADATA_REGION ++
        (blockXorMac (key ++ nonce ++ sealedBytes payload key nonce total) ++
          sealedBytes payload key nonce total)) := by
  unfold encryptJSONFile at h
  by_cases hval : key.length = ENCRYPTION_KEY_LENGTH ∧
      nonce.length = ENCRYPTION_NONCE_LENGTH
  · rw [if_pos hval] at h
    rcases hp : padFileSize (payload.length + 56) with _ | total
    · rw [hp] at h
      simp at h
    · rw [hp] at h
      simp only [Option.some.injEq] at h
      exact ⟨hval.1, hval.2, total, rfl, padFileSize_ge _ _ hp, h.symm⟩
  · rw [if_neg hval] at h
    cases h

theorem container_regions_length (nonce meta tagct : List Nat) (total : Nat)
    (hn : nonce.length = 24) (hm : meta.length = 16)
    (htc : tagct.length = 16 + (total - 56)) (h56 : 56 ≤ total) :
    (nonce ++ (meta ++ tagct)).length = total := by
  simp [hn, hm, htc]
  omega

/-- Evaluation of `decryptJSONFile` on a container given by its regions,
once the size check passes: version check first, authenticator second. -/
theorem decryptJSONFile_regions (key nonce meta tagct : List Nat)
    (hn : nonce.length = 24) (hm : meta.length = 16)
    (hcheck : checkPaddedBlock (nonce ++ (meta ++ tagct)).length = some true) :
    decryptJSONFile (nonce ++ (meta ++ tagct)) key =
      if meta.headD 0 = 1 then
        (if blockXorMac (key ++ nonce ++ tagct.drop 16) = tagct.take 16 then
          Except.ok (xorBytes (tagct.drop 16)
            (keystream key nonce (tagct.drop 16).length))
         else Except.error DecryptErr.authErr)
      else Except.error (DecryptErr.versionErr (meta.headD 0) 1) := by
  have h1 : (nonce ++ (meta ++ tagct)).take 24 = nonce := take_len_append _ _ _ hn
  have h2 : (nonce ++ (meta ++ tagct)).drop 24 = meta ++ tagct :=
    drop_len_append _ _ _ hn
  have h3 : (meta ++ tagct).take 16 = meta := take_len_append _ _ _ hm
  have h4 : (meta ++ tagct).drop 16 = tagct := drop_len_append _ _ _ hm
  simp only [decryptJSONFile, ENCRYPTION_NONCE_LENGTH,
    ENCRYPTION_HIDDEN_FIELD_METADATA_LENGTH, ENCRYPTED_JSON_RESPONSE_VERSION,
    h1, h2, h3, h4]
  rw [if_pos hcheck]

theorem METADATA_REGION_length : METADATA_REGION.length = 16 := rfl

/-- A successful encryption given in region form with a 16-byte tag region:
the tag is the authenticator of key, nonce and ciphertext, and the
ciphertext fills the padded total. -/
theorem encryptJSONFile_region_inj (payload key nonce tag ct : List Nat)
    (h : encryptJSONFile payload key nonce =
      some (nonce ++ (METADATA_REGION ++ (tag ++ ct))))
    (ht : tag.length = 16) :
    key.length = 32 ∧ nonce.length = 24 ∧
    ∃ total, padFileSize (payload.length + 56) = some total ∧
      payload.length + 56 ≤ total ∧
      tag = blockXorMac (key ++ nonce ++ ct) ∧ ct.length = total - 56 := by
  obtain ⟨hk, hn, total, hp, hle, hc⟩ := encryptJSONFile_parts _ _ _ _ h
  have hc2 : tag ++ ct =
      blockXorMac (key ++ nonce ++ sealedBytes payload key nonce total) ++
        sealedBytes payload key nonce total :=
    List.append_cancel_left (List.append_cancel_left hc)
  have hinj := List.append_inj hc2 (by rw [ht, blockXorMac_length])
  obtain ⟨htag, hct⟩ := hinj
  refine ⟨hk, hn, total, hp, hle, ?_, ?_⟩
  · rw [htag, hct]
  · rw [hct]
    exact sealedBytes_length _ _ _ _ hle

/-- C5.  Tamper detection for the container codec: an input whose length is
outside the padded-size set fails with the size error before any other
check; flipping any bit of the version byte fails with the version-mismatch
error naming the found and expected versions, without reaching the
authenticator check; and flipping any single bit in the nonce region or
anywhere in the authenticated ciphertext region (its tag bytes or its
cipher bytes) fails with the single undifferentiated
authentication/decryption error. -/
theorem decryptJSONFile_tamper :
    (∀ data key, checkPaddedBlock data.length = some false →
      decryptJSONFile data key = Except.error DecryptErr.sizeErr) ∧
    (∀ payload key nonce tag ct j, j < 8 →
      encryptJSONFile payload key nonce =
        some (nonce ++ (METADATA_REGION ++ (tag ++ ct))) →
      tag.length = 16 →
      decryptJSONFile
          (nonce ++ ((((1 : Nat) ^^^ 2 ^ j) :: List.replicate 15 0) ++ (tag ++ ct)))
          key =
        Except.error (DecryptErr.versionErr ((1 : Nat) ^^^ 2 ^ j) 1)) ∧
    (∀ payload key n1 x n2 tag ct j, j < 8 →
      encryptJSONFile payload key (n1 ++ x :: n2) =
        some ((n1 ++ x :: n2) ++ (METADATA_REGION ++ (tag ++ ct))) →
      tag.length = 16 →
      decryptJSONFile
          ((n1 ++ (x ^^^ 2 ^ j) :: n2) ++ (METADATA_REGION ++ (tag ++ ct))) key =
        Except.error DecryptErr.authErr) ∧
    (∀ payload key nonce t1 x t2 ct j, j < 8 →
      encryptJSONFile payload key nonce =
        some (nonce ++ (METADATA_REGION ++ ((t1 ++ x :: t2) ++ ct))) →
      (t1 ++ x :: t2).length = 16 →
      decryptJSONFile
          (nonce ++ (METADATA_REGION ++ ((t1 ++ (x ^^^ 2 ^ j) :: t2) ++ ct))) key =
        Except.error DecryptErr.authErr) ∧
    (∀ payload key nonce tag e1 x e2 j, j < 8 →
      encryptJSONFile payload key nonce =
        some (nonce ++ (METADATA_REGION ++ (tag ++ (e1 ++ x :: e2)))) →
      tag.length = 16 →
      decryptJSONFile
          (nonce ++ (METADATA_REGION ++ (tag ++ (e1 ++ (x ^^^ 2 ^ j) :: e2)))) key =
        Except.error DecryptErr.authErr) := by
  refine ⟨?_, ?_, ?_, ?_, ?_⟩
  · -- size error
    intro data key h
    unfold decryptJSONFile
    rw [if_neg (by simp [h])]
  · -- version byte flip
    intro payload key nonce tag ct j hj henc htag
    obtain ⟨hk, hn, total, hp, hle, htageq, hctlen⟩ :=
      encryptJSONFile_region_inj _ _ _ _ _ henc htag
    have hm' : (((1 : Nat) ^^^ 2 ^ j) :: List.replicate 15 0).length = 16 := by simp
    have htclen : (tag ++ ct).length = 16 + (total - 56) := by
      simp [htag, hctlen]
    have hlen := container_regions_length nonce _ (tag ++ ct) total hn hm' htclen
      (by omega)
    have hcheck : checkPaddedBlock
        ((nonce ++ ((((1 : Nat) ^^^ 2 ^ j) :: List.replicate 15 0) ++ (tag ++ ct)))).length =
        some true := by
      rw [hlen]
      exact checkPaddedBlock_padFileSize _ _ hp
    rw [decryptJSONFile_regions key nonce _ (tag ++ ct) hn hm' hcheck]
    rw [show (((1 : Nat) ^^^ 2 ^ j) :: List.replicate 15 0).headD 0 = (1 : Nat) ^^^ 2 ^ j from rfl]
    rw [if_neg (xor_pow_ne 1 j)]
  · -- nonce bit flip
    intro payload key n1 x n2 tag ct j hj henc htag
    obtain ⟨hk, hn, total, hp, hle, htageq, hctlen⟩ :=
      encryptJSONFile_region_inj _ _ _ _ _ henc htag
    have hn' : (n1 ++ (x ^^^ 2 ^ j) :: n2).length = 24 := by
      simp only [List.length_append, List.length_cons] at hn ⊢
      omega
    have htclen : (tag ++ ct).length = 16 + (total - 56) := by
      simp [htag, hctlen]
    have hlen := container_regions_length _ METADATA_REGION (tag ++ ct) total hn'
      METADATA_REGION_length htclen (by omega)
    have hcheck : checkPaddedBlock
        (((n1 ++ (x ^^^ 2 ^ j) :: n2) ++ (METADATA_REGION ++ (tag ++ ct)))).length =
        some true := by
      rw [hlen]
      exact checkPaddedBlock_padFileSize _ _ hp
    rw [decryptJSONFile_regions key _ METADATA_REGION (tag ++ ct) hn'
      METADATA_REGION_length hcheck]
    rw [show METADATA_REGION.headD 0 = 1 from rfl, if_pos rfl]
    rw [take_len_append tag ct 16 htag, drop_len_append tag ct 16 htag]
    rw [if_neg]
    intro hcontra
    rw [htageq] at hcontra
    have e1 : key ++ (n1 ++ (x ^^^ 2 ^ j) :: n2) ++ ct =
        (key ++ n1) ++ ((x ^^^ 2 ^ j) :: (n2 ++ ct)) := by
      simp [List.append_assoc]
    have e2 : key ++ (n1 ++ x :: n2) ++ ct = (key ++ n1) ++ (x :: (n2 ++ ct)) := by
      simp [List.append_assoc]
    rw [e1, e2] at hcontra
    exact blockXorMac_flip (key ++ n1) (n2 ++ ct) x j hcontra
  · -- tag bit flip
    intro payload key nonce t1 x t2 ct j hj henc htag
    obtain ⟨hk, hn, total, hp, hle, htageq, hctlen⟩ :=
      encryptJSONFile_region_inj _ _ _ _ _ henc htag
    have htag' : (t1 ++ (x ^^^ 2 ^ j) :: t2).length = 16 := by
      simp only [List.length_append, List.length_cons] at htag ⊢
      omega
    have htclen : ((t1 ++ (x ^^^ 2 ^ j) :: t2) ++ ct).length = 16 + (total - 56) := by
      simp only [List.length_append, htag', hctlen]
    have hlen := container_regions_length nonce METADATA_REGION _ total hn
      METADATA_REGION_length htclen (by omega)
    have hcheck : checkPaddedBlock
        ((nonce ++ (METADATA_REGION ++ ((t1 ++ (x ^^^ 2 ^ j) :: t2) ++ ct)))).length =
        some true := by
      rw [hlen]
      exact checkPaddedBlock_padFileSize _ _ hp
    rw [decryptJSONFile_regions key nonce METADATA_REGION _ hn
      METADATA_REGION_length hcheck]
    rw [show METADATA_REGION.headD 0 = 1 from rfl, if_pos rfl]
    rw [take_len_append _ ct 16 htag', drop_len_append _ ct 16 htag']
    rw [if_neg]
    intro hcontra
    rw [← htageq] at hcontra
    have h2 := List.append_cancel_left hcontra
    simp only [List.cons.injEq] at h2
    exact xor_pow_ne x j h2.1.symm
  · -- ciphertext bit flip
    intro payload key nonce tag e1 x e2 j hj henc htag
    obtain ⟨hk, hn, total, hp, hle, htageq, hctlen⟩ :=
      encryptJSONFile_region_inj _ _ _ _ _ henc htag
    have hct' : (e1 ++ (x ^^^ 2 ^ j) :: e2).length = total - 56 := by
      simp only [List.length_append, List.length_cons] at hctlen ⊢
      omega
    have htclen : (tag ++ (e1 ++ (x ^^^ 2 ^ j) :: e2)).length = 16 + (total - 56) := by
      simp only [List.length_append, htag, hct']
    have hlen := container_regions_length nonce METADATA_REGION _ total hn
      METADATA_REGION_length htclen (by omega)
    have hcheck : checkPaddedBlock
        ((nonce ++ (METADATA_REGION ++ (tag ++ (e1 ++ (x ^^^ 2 ^ j) :: e2))))).length =
        some true := by
      rw [hlen]
      exact checkPaddedBlock_padFileSize _ _ hp
    rw [decryptJSONFile_regions key nonce METADATA_REGION _ hn
      METADATA_REGION_length hcheck]
    rw [show METADATA_REGION.headD 0 = 1 from rfl, if_pos rfl]
    rw [take_len_append tag _ 16 htag, drop_len_append tag _ 16 htag]
    rw [if_neg]
    intro hcontra
    rw [htageq] at hcontra
    have e3 : key ++ nonce ++ (e1 ++ (x ^^^ 2 ^ j) :: e2) =
        (key ++ nonce ++ e1) ++ ((x ^^^ 2 ^ j) :: e2) := by
      rw [List.append_assoc (key ++ nonce) e1 _]
    have e4 : key ++ nonce ++ (e1 ++ x :: e2) =
        (key ++ nonce ++ e1) ++ (x :: e2) := by
      rw [List.append_assoc (key ++ nonce) e1 _]
    rw [e3, e4] at hcontra
    exact blockXorMac_flip (key ++ nonce ++ e1) e2 x j hcontra

theorem cons_headD_tail {l : List Nat} (h : l ≠ []) :
    ([] : List Nat) ++ l.headD 0 :: l.tail = l := by
  cases l with
  | nil => exact absurd rfl h
  | cons a t => rfl

/-- Concrete witness key (32 bytes). -/
def keyW : List Nat := List.replicate 32 7

/-- Concrete witness nonce (24 bytes). -/
def nonceW : List Nat := 9 :: List.replicate 23 9

/-- The witness container's ciphertext region (the empty payload seals into
a 4096-byte container). -/
def encW : List Nat := sealedBytes [] keyW nonceW 4096

/-- The witness container's authenticator region. -/
def tagW : List Nat := blockXorMac (keyW ++ nonceW ++ encW)

theorem decryptJSONFile_tamper_witness :
    decryptJSONFile (List.replicate 100 0) keyW = Except.error DecryptErr.sizeErr ∧
    decryptJSONFile
        (nonceW ++ ((((1 : Nat) ^^^ 2 ^ 0) :: List.replicate 15 0) ++ (tagW ++ encW)))
        keyW =
      Except.error (DecryptErr.versionErr ((1 : Nat) ^^^ 2 ^ 0) 1) ∧
    decryptJSONFile
        (([] ++ ((9 : Nat) ^^^ 2 ^ 0) :: List.replicate 23 9) ++
          (METADATA_REGION ++ (tagW ++ encW))) keyW =
      Except.error DecryptErr.authErr ∧
    decryptJSONFile
        (nonceW ++ (METADATA_REGION ++
          (([] ++ (tagW.headD 0 ^^^ 2 ^ 0) :: tagW.tail) ++ encW))) keyW =
      Except.error DecryptErr.authErr ∧
    decryptJSONFile
        (nonceW ++ (METADATA_REGION ++
          (tagW ++ ([] ++ (encW.headD 0 ^^^ 2 ^ 0) :: encW.tail)))) keyW =
      Except.error DecryptErr.authErr := by
  have h0 : encryptJSONFile [] keyW nonceW =
      some (nonceW ++ (METADATA_REGION ++ (tagW ++ encW))) := rfl
  have h0' : encryptJSONFile [] keyW ([] ++ (9 : Nat) :: List.replicate 23 9) =
      some ((([] : List Nat) ++ (9 : Nat) :: List.replicate 23 9) ++
        (METADATA_REGION ++ (tagW ++ encW))) := rfl
  have htag16 : tagW.length = 16 := blockXorMac_length _
  have htagne : tagW ≠ [] := by
    intro hnil
    rw [hnil] at htag16
    simp at htag16
  have henclen : encW.length = 4040 := by
    have h := sealedBytes_length [] keyW nonceW 4096 (by simp)
    simpa using h
  have hencne : encW ≠ [] := by
    intro hnil
    rw [hnil] at henclen
    simp at henclen
  refine ⟨?_, ?_, ?_, ?_, ?_⟩
  · exact decryptJSONFile_tamper.1 (List.replicate 100 0) keyW (by decide)
  · exact decryptJSONFile_tamper.2.1 [] keyW nonceW tagW encW 0 (by norm_num)
      h0 htag16
  · exact decryptJSONFile_tamper.2.2.1 [] keyW [] 9 (List.replicate 23 9)
      tagW encW 0 (by norm_num) h0' htag16
  · exact decryptJSONFile_tamper.2.2.2.1 [] keyW nonceW [] (tagW.headD 0)
      tagW.tail encW 0 (by norm_num)
      (by rw [cons_headD_tail htagne]; exact h0)
      (by rw [cons_headD_tail htagne]; exact htag16)
  · exact decryptJSONFile_tamper.2.2.2.2 [] keyW nonceW tagW []
      (encW.headD 0) encW.tail 0 (by norm_num)
      (by rw [cons_headD_tail hencne]; exact h0) htag16

/- ### `setJSON` from the skydb module (src/unnamed/part_001) -/

/-- The registry entry shape `setJSON` builds: skylink data and revision. -/
structure RegistryEntryV1 where
  data : List Char
  revision : Nat
deriving DecidableEq

/-- The result of a registry lookup: the stored entry, its revision counter
and its signature, as the skydb module consumes it. -/
structure SignedEntryLookup where
  entry : RegistryEntryV1
  revision : Nat
  signature : List Nat
deriving DecidableEq

/-- The external collaborators `setJSON` calls, passed explicitly: the
skylink returned by the upload and the registry lookup result (`none`
models "no prior entry"). -/
structure SetJSONEnv where
  skylink : List Char
  lookup : Option SignedEntryLookup
deriving DecidableEq

/-- The signed entry `setJSON` hands to `registry.setEntry`. -/
structure SignedResult where
  entry : RegistryEntryV1
  signature : List Nat
  publicKey : List Nat
deriving DecidableEq

/-- Modelled from the spec: ed25519 key derivation (node-forge
`publicKeyFromPrivateKey`) is an external primitive; deterministic
stand-in. -/
def pubFromPriv (privateKey : List Nat) : List Nat :=
  hashBytes32 privateKey

/-- Modelled from the spec: a deterministic signature scheme (§4.6) —
stand-in signature bytes over a message for a public key. -/
def edSignature (message publicKey : List Nat) : List Nat :=
  hashBytes32 (publicKey ++ message)

/-- Signing with a private key produces the signature its public key
verifies. -/
def edSign (message privateKey : List Nat) : List Nat :=
  edSignature message (pubFromPriv privateKey)

/-- Modelled from the spec: `verify(hash, signature, publicKey) -> bool`
(§4.6) — stand-in verification. -/
def edVerify (message signature publicKey : List Nat) : Bool :=
  signature == edSignature message publicKey

/-- Modelled from the spec: the `HashRegistryEntry` the skydb module
imports from its crypto module is absent from src/; §4.6's canonical form
over this entry shape (length-prefixed data, fixed-width revision). -/
def HashRegistryEntryV1 (e : RegistryEntryV1) : List Nat :=
  hashAll [encodePrefixedBytes (utf8Encode e.data), encodeBigintAsUint64 e.revision]

def siaUriScheme : List Char := ['s', 'i', 'a', ':', '/', '/']

/-- Whether the second list starts with the first. -/
def hasPref : List Char → List Char → Bool
  | [], _ => true
  | _ :: _, [] => false
  | p :: ps, c :: cs => p == c && hasPref ps cs

/-- Modelled from the spec: `trimUriPrefix` from the utils module is absent
from src/; drops the URI scheme when present. -/
def trimUriPref (s pre : List Char) : List Char :=
  if hasPref pre s then s.drop pre.length else s

/-- The JS falsiness test `!revision` applied to the optional revision
argument: an absent argument and an explicit `0` are both falsy. -/
def isFalsyRevision : Option Nat → Bool
  | none => true
  | some 0 => true
  | some (_ + 1) => false

/-- `setJSON` from the skydb module: upload (its skylink is supplied by the
environment), then — when the revision argument is falsy — fetch the
current entry, verify its signature against the public key derived from the
private key (a failure is the hard error "could not verify signature"), and
use revision `previous + 1`, or `0` with no prior entry; finally build, sign
and return the new entry. -/
def setJSON (env : SetJSONEnv) (privateKey : List Nat) (dataKey : List Char)
    (json : List Char) (revision? : Option Nat) : Except String SignedResult :=
  let publicKey := pubFromPriv privateKey
  let revE : Except String Nat :=
    if isFalsyRevision revision? then
      match env.lookup with
      | some res =>
        if edVerify (HashRegistryEntryV1 res.entry) res.signature publicKey then
          Except.ok (res.revision + 1)
        else Except.error "could not verify signature"
      | none => Except.ok 0
    else Except.ok (revision?.getD 0)
  match revE with
  | Except.error e => Except.error e
  | Except.ok revision =>
    let entry : RegistryEntryV1 := ⟨trimUriPref env.skylink siaUriScheme, revision⟩
    Except.ok ⟨entry, edSign (HashRegistryEntryV1 entry) privateKey, publicKey⟩

/-- C3.  The revision protocol of `setJSON` with no revision supplied: no
prior entry signs revision 0; a prior entry whose signature verifies
against the public key derived from the private key signs revision
`previous + 1`; and a prior entry that fails verification aborts with the
error "could not verify signature" before any new entry is constructed or
signed. -/
theorem setJSON_revision_protocol :
    (∀ env privateKey dataKey json, env.lookup = none →
      ∃ r, setJSON env privateKey dataKey json none = Except.ok r ∧
        r.entry.revision = 0) ∧
    (∀ env privateKey dataKey json res, env.lookup = some res →
      edVerify (HashRegistryEntryV1 res.entry) res.signature
        (pubFromPriv privateKey) = true →
      ∃ r, setJSON env privateKey dataKey json none = Except.ok r ∧
        r.entry.revision = res.revision + 1) ∧
    (∀ env privateKey dataKey json res, env.lookup = some res →
      edVerify (HashRegistryEntryV1 res.entry) res.signature
        (pubFromPriv privateKey) = false →
      setJSON env privateKey dataKey json none =
        Except.error "could not verify signature") := by
  refine ⟨?_, ?_, ?_⟩
  · intro env privateKey dataKey json hlook
    refine ⟨⟨⟨trimUriPref env.skylink siaUriScheme, 0⟩,
      edSign (HashRegistryEntryV1 ⟨trimUriPref env.skylink siaUriScheme, 0⟩) privateKey,
      pubFromPriv privateKey⟩, ?_, rfl⟩
    unfold setJSON
    rw [hlook]
    rfl
  · intro env privateKey dataKey json res hlook hver
    refine ⟨⟨⟨trimUriPref env.skylink siaUriScheme, res.revision + 1⟩,
      edSign (HashRegistryEntryV1
        ⟨trimUriPref env.skylink siaUriScheme, res.revision + 1⟩) privateKey,
      pubFromPriv privateKey⟩, ?_, rfl⟩
    unfold setJSON
    rw [hlook]
    simp only [isFalsyRevision, if_true, hver]
  · intro env privateKey dataKey json res hlook hver
    unfold setJSON
    rw [hlook]
    simp only [isFalsyRevision, if_true, hver]
    rfl

/-- Concrete witness private key. -/
def privW : List Nat := List.replicate 64 3

/-- Concrete stored entry for the witness lookups. -/
def entryW : RegistryEntryV1 := ⟨['x'], 4⟩

/-- A lookup result whose signature verifies. -/
def goodLookup : SignedEntryLookup :=
  ⟨entryW, 5, edSignature (HashRegistryEntryV1 entryW) (pubFromPriv privW)⟩

/-- A lookup result whose signature does not verify. -/
def badLookup : SignedEntryLookup := ⟨entryW, 5, [0]⟩

set_option maxRecDepth 8000 in
theorem setJSON_revision_protocol_witness :
    (∃ r, setJSON ⟨['s'], none⟩ privW ['d'] ['j'] none = Except.ok r ∧
      r.entry.revision = 0) ∧
    (∃ r, setJSON ⟨['s'], some goodLookup⟩ privW ['d'] ['j'] none = Except.ok r ∧
      r.entry.revision = goodLookup.revision + 1) ∧
    setJSON ⟨['s'], some badLookup⟩ privW ['d'] ['j'] none =
      Except.error "could not verify signature" := by
  refine ⟨?_, ?_, ?_⟩
  · exact setJSON_revision_protocol.1 ⟨['s'], none⟩ privW ['d'] ['j'] rfl
  · exact setJSON_revision_protocol.2.1 ⟨['s'], some goodLookup⟩ privW ['d'] ['j']
      goodLookup rfl (by decide)
  · exact setJSON_revision_protocol.2.2 ⟨['s'], some badLookup⟩ privW ['d'] ['j']
      badLookup rfl (by decide)

/-- C9.  An explicit revision argument of `0` is falsy to the `!revision`
test, so `setJSON` behaves exactly as if no revision had been supplied: it
runs the fetch-verify-increment path rather than signing the caller's
revision `0`. -/
theorem setJSON_zero_revision_as_absent :
    ∀ env privateKey dataKey json,
      setJSON env privateKey dataKey json (some 0) =
        setJSON env privateKey dataKey json none := by
  intro env privateKey dataKey json
  rfl

/- ### `MySky.New` (src/src/mysky/index.ts) -/

/-- `Permission` from skynet-interface-utils, as `New` constructs it:
requestor domain, target skapp domain, category and permission type. -/
structure Permission where
  requestor : List Char
  target : List Char
  category : Nat
  permType : Nat
deriving DecidableEq

/-- `PermCategory.Hidden` stand-in value (external enum). -/
def PermCategoryHidden : Nat := 2

/-- `PermType.Write` stand-in value (external enum). -/
def PermTypeWrite : Nat := 4

/-- The `MySky` object: its connector (abstracted to an identifier), its
permission list and its requestor domain. -/
structure MySky where
  connector : Nat
  permissions : List Permission
  domain : List Char
deriving DecidableEq

/-- `MySky.New`: the static `MySky.instance` field is threaded explicitly as
the first argument and returned updated.  The singleton check comes first;
on success the freshly constructed object is stored in the instance slot
and returned. -/
def MySkyNew (instanceState : Option MySky) (connector : Nat)
    (skappDomain domain : List Char) : Except String MySky × Option MySky :=
  match instanceState with
  | some _ => (Except.error "MySky was already loaded.", instanceState)
  | none =>
    let perm : Permission := ⟨domain, skappDomain, PermCategoryHidden, PermTypeWrite⟩
    let m : MySky := ⟨connector, [perm], domain⟩
    (Except.ok m, some m)

/-- C10.  `MySky.New` throws "MySky was already loaded." exactly when
`MySky.instance` is non-null at the start of the call, leaving the instance
unchanged in that case; a successful call stores the newly constructed
object in `MySky.instance`, so a second call always fails: at most one
instance per process. -/
theorem MySkyNew_singleton :
    (∀ st connector skappDomain domain,
      (MySkyNew st connector skappDomain domain).1 =
          Except.error "MySky was already loaded." ↔ st ≠ none) ∧
    (∀ st connector skappDomain domain, st ≠ none →
      MySkyNew st connector skappDomain domain =
        (Except.error "MySky was already loaded.", st)) ∧
    (∀ connector skappDomain domain,
      MySkyNew none connector skappDomain domain =
        (Except.ok ⟨connector,
            [⟨domain, skappDomain, PermCategoryHidden, PermTypeWrite⟩], domain⟩,
          some ⟨connector,
            [⟨domain, skappDomain, PermCategoryHidden, PermTypeWrite⟩], domain⟩)) ∧
    (∀ connector skappDomain domain connector2 skappDomain2 domain2,
      (MySkyNew (MySkyNew none connector skappDomain domain).2
          connector2 skappDomain2 domain2).1 =
        Except.error "MySky was already loaded.") := by
  refine ⟨?_, ?_, ?_, ?_⟩
  · intro st connector skappDomain domain
    cases st with
    | none => simp [MySkyNew]
    | some m => simp [MySkyNew]
  · intro st connector skappDomain domain hst
    cases st with
    | none => exact absurd rfl hst
    | some m => rfl
  · intro connector skappDomain domain
    rfl
  · intro connector skappDomain domain connector2 skappDomain2 domain2
    rfl

theorem MySkyNew_singleton_witness :
    MySkyNew (some ⟨0, [], []⟩) 1 ['s'] ['d'] =
      (Except.error "MySky was already loaded.", some ⟨0, [], []⟩) :=
  MySkyNew_singleton.2.1 (some ⟨0, [], []⟩) 1 ['s'] ['d'] (by simp)

end SkynetJs
